import Mathlib

/-!
Verification of the rolling least-squares specification of this repository.

The repository's own files are example notebooks; the rolling regression
engine they exercise (`statsmodels.regression.rolling`, called from the
rolling regression notebook) is not part of the source tree, so the engine
below is modelled from the specification's algorithm, following its words
step by step.  The dynamic-factor notebook's `ExtendedDFM` subclass, whose
code is in the source tree, is embedded directly.

Numbers are exact rationals, so floating-point statements of the
specification ("within tolerance") become exact equalities.
-/

namespace Rolling

/-- Modelled from the spec: one observation row of the engine that is absent
from the source tree ("each row an endogenous scalar `y_t` and a covariate
vector `x_t`"); a `none` field is a missing value, as in "using only rows
with non-missing `y` and `x`". -/
structure Obs (k : ℕ) where
  y : Option ℚ
  x : Option (Fin k → ℚ)
deriving DecidableEq

instance {k : ℕ} : Inhabited (Obs k) := ⟨⟨none, none⟩⟩

/-- Modelled from the spec: the static configuration of the absent engine's
`fit` contract (window specification, covariance type, fast path, reset). -/
structure Config where
  window_size : ℕ
  min_nobs : Option ℕ := none
  expanding : Bool := false
  cov_type : String := "nonrobust"
  params_only : Bool := false
  reset : Option ℕ := none

/-- Modelled from the spec: the error raised "once, before any row
processing" for invalid static parameters. -/
inductive ConfigurationError
  | badWindowSize
  | badMinNobs
  | badCovType
  | badReset
deriving DecidableEq

/-- Modelled from the spec: the per-position payload of `RollingFitResult`
(coefficients, valid-observation count, residual degrees of freedom, and,
unless the parameters-only fast path is chosen, covariance and residual
sum of squares). -/
structure EstimateData (k : ℕ) where
  params : Fin k → ℚ
  nobs : ℕ
  df_resid : ℕ
  cov : Option (Matrix (Fin k) (Fin k) ℚ)
  ssr : Option ℚ
deriving DecidableEq

/-- Modelled from the spec: one output slot of `RollingFitResult`: either the
"no estimate" sentinel (insufficient valid observations, a normal outcome),
the singular-design error attached to that window's slot, or an estimate. -/
inductive PosResult (k : ℕ)
  | noEstimate
  | singular
  | est (d : EstimateData k)
deriving DecidableEq

/-- Effective minimum observation count: `min_nobs` "defaults to `k`
(minimum needed to identify the coefficient vector) if unset". -/
def minN (k : ℕ) (cfg : Config) : ℕ := cfg.min_nobs.getD k

/-- Weight of row `i`: unit weights when no weight vector is given. -/
def wAt (ws : Option (List ℚ)) (i : ℕ) : ℚ :=
  match ws with
  | none => 1
  | some l => l.getD i 1

/-- Row `i` is valid when `y` and `x` are present and its weight is not
exactly zero (a zero-weight row "is treated as excluded from the window"). -/
def validB {k : ℕ} (obs : List (Obs k)) (ws : Option (List ℚ)) (i : ℕ) : Bool :=
  ((obs.getD i default).y.isSome && (obs.getD i default).x.isSome) &&
    decide (wAt ws i ≠ 0)

/-- First index of the window ending at `t` (truncated subtraction gives the
expanding prefix `[0, t]` while below the full window). -/
def lo (w t : ℕ) : ℕ := t + 1 - w

/-- Cross-product contribution `w · x xᵀ` of one row to `X'WX`; missing rows
contribute nothing. -/
def rowA {k : ℕ} (o : Obs k) (w : ℚ) : Matrix (Fin k) (Fin k) ℚ :=
  match o.y, o.x with
  | some _, some xv => w • Matrix.vecMulVec xv xv
  | _, _ => 0

/-- Contribution `w · y · x` of one row to `X'Wy`; missing rows contribute
nothing. -/
def rowB {k : ℕ} (o : Obs k) (w : ℚ) : Fin k → ℚ :=
  match o.y, o.x with
  | some yv, some xv => fun i => w * yv * xv i
  | _, _ => 0

/-- Accumulated `X'WX` over rows `[a, b]`. -/
def sumA {k : ℕ} (obs : List (Obs k)) (ws : Option (List ℚ)) (a b : ℕ) :
    Matrix (Fin k) (Fin k) ℚ :=
  ∑ i in Finset.Icc a b, rowA (obs.getD i default) (wAt ws i)

/-- Accumulated `X'Wy` over rows `[a, b]`. -/
def sumB {k : ℕ} (obs : List (Obs k)) (ws : Option (List ℚ)) (a b : ℕ) :
    Fin k → ℚ :=
  ∑ i in Finset.Icc a b, rowB (obs.getD i default) (wAt ws i)

/-- Count of valid rows among `[a, b]`. -/
def nvalid {k : ℕ} (obs : List (Obs k)) (ws : Option (List ℚ)) (a b : ℕ) : ℕ :=
  ((Finset.Icc a b).filter (fun i => validB obs ws i = true)).card

/-- Solution of the normal equations `A β = b` by Cramer's rule (exact
arithmetic stands in for the spec's "numerically stable decomposition"). -/
def solveβ {k : ℕ} (A : Matrix (Fin k) (Fin k) ℚ) (b : Fin k → ℚ) : Fin k → ℚ :=
  A.det⁻¹ • A.cramer b

/-- Residual of row `o` against coefficients `β`; zero for missing rows
(which are excluded from every residual sum anyway). -/
def residAt {k : ℕ} (o : Obs k) (β : Fin k → ℚ) : ℚ :=
  match o.y, o.x with
  | some yv, some xv => yv - ∑ j, xv j * β j
  | _, _ => 0

/-- Covariate vector of a row, defaulting to zero when missing (only ever
used on valid rows). -/
def xOf {k : ℕ} (o : Obs k) : Fin k → ℚ := o.x.getD 0

/-- Weighted residual sum of squares over the valid rows of `[a, b]`. -/
def ssrWin {k : ℕ} (obs : List (Obs k)) (ws : Option (List ℚ)) (a b : ℕ)
    (β : Fin k → ℚ) : ℚ :=
  ∑ i in (Finset.Icc a b).filter (fun i => validB obs ws i = true),
    wAt ws i * (residAt (obs.getD i default) β) ^ 2

/-- HC0 "meat": outer products of per-row residual-weighted regressors over
the valid rows of `[a, b]`. -/
def meatWin {k : ℕ} (obs : List (Obs k)) (ws : Option (List ℚ)) (a b : ℕ)
    (β : Fin k → ℚ) : Matrix (Fin k) (Fin k) ℚ :=
  ∑ i in (Finset.Icc a b).filter (fun i => validB obs ws i = true),
    Matrix.vecMulVec (residAt (obs.getD i default) β • xOf (obs.getD i default))
      (residAt (obs.getD i default) β • xOf (obs.getD i default))

/-- Requested covariance matrix: "nonrobust" scales the inverted
cross-product matrix by the in-window residual variance, "hc0" is the
sandwich estimator. -/
def covOf {k : ℕ} (cfg : Config) (obs : List (Obs k)) (ws : Option (List ℚ))
    (a t : ℕ) (A : Matrix (Fin k) (Fin k) ℚ) (b : Fin k → ℚ) :
    Matrix (Fin k) (Fin k) ℚ :=
  if cfg.cov_type = "hc0" then
    (A.det⁻¹ • A.adjugate) * meatWin obs ws a t (solveβ A b) *
      (A.det⁻¹ • A.adjugate)
  else
    (ssrWin obs ws a t (solveβ A b) /
      ((nvalid obs ws a t : ℚ) - (k : ℚ))) • (A.det⁻¹ • A.adjugate)

/-- Modelled from the spec: the per-position body of the absent engine's
`fit` (steps 4-7 of the algorithm), given the accumulated cross products:
"no estimate" before a full window when not expanding, "no estimate" when
fewer than `min_nobs` valid rows, the singular-design error when the
accumulated matrix is not invertible, otherwise the solved estimate, with
covariance and residual diagnostics skipped on the parameters-only path. -/
def fitWith {k : ℕ} (cfg : Config) (obs : List (Obs k)) (ws : Option (List ℚ))
    (t : ℕ) (A : Matrix (Fin k) (Fin k) ℚ) (b : Fin k → ℚ) : PosResult k :=
  if cfg.expanding = false ∧ t + 1 < cfg.window_size then .noEstimate
  else if nvalid obs ws (lo cfg.window_size t) t < minN k cfg then .noEstimate
  else if A.det = 0 then .singular
  else if cfg.params_only then
    .est ⟨solveβ A b, nvalid obs ws (lo cfg.window_size t) t,
      nvalid obs ws (lo cfg.window_size t) t - k, none, none⟩
  else
    .est ⟨solveβ A b, nvalid obs ws (lo cfg.window_size t) t,
      nvalid obs ws (lo cfg.window_size t) t - k,
      some (covOf cfg obs ws (lo cfg.window_size t) t A b),
      some (ssrWin obs ws (lo cfg.window_size t) t (solveβ A b))⟩

/-- From-scratch fit at position `t`: the normal equations are formed over
the explicit window slice `[t - w + 1, t]`. -/
def fitAt {k : ℕ} (cfg : Config) (obs : List (Obs k)) (ws : Option (List ℚ))
    (t : ℕ) : PosResult k :=
  fitWith cfg obs ws t (sumA obs ws (lo cfg.window_size t) t)
    (sumB obs ws (lo cfg.window_size t) t)

/-- Running cross-product accumulator (`X'WX`, `X'Wy`). -/
structure Acc (k : ℕ) where
  a : Matrix (Fin k) (Fin k) ℚ
  b : Fin k → ℚ

/-- Modelled from the spec: one step of the absent engine's incremental
accumulation (algorithm steps 2-3): add the entering row, subtract the row
that fell out once the window is full, and, when `reset` divides `t` after
the first full window, discard the accumulator and recompute it over the
explicit current window. -/
def accStep {k : ℕ} (cfg : Config) (obs : List (Obs k)) (ws : Option (List ℚ))
    (t : ℕ) (s : Acc k) : Acc k :=
  let s₁ : Acc k := ⟨s.a + rowA (obs.getD t default) (wAt ws t),
    s.b + rowB (obs.getD t default) (wAt ws t)⟩
  let s₂ : Acc k :=
    if cfg.window_size ≤ t then
      ⟨s₁.a - rowA (obs.getD (t - cfg.window_size) default) (wAt ws (t - cfg.window_size)),
        s₁.b - rowB (obs.getD (t - cfg.window_size) default) (wAt ws (t - cfg.window_size))⟩
    else s₁
  match cfg.reset with
  | some r =>
      if t % r = 0 ∧ cfg.window_size ≤ t then
        ⟨sumA obs ws (lo cfg.window_size t) t, sumB obs ws (lo cfg.window_size t) t⟩
      else s₂
  | none => s₂

/-- Accumulator state after processing rows `0, …, t`. -/
def accAt {k : ℕ} (cfg : Config) (obs : List (Obs k)) (ws : Option (List ℚ)) :
    ℕ → Acc k
  | 0 => accStep cfg obs ws 0 ⟨0, 0⟩
  | t + 1 => accStep cfg obs ws (t + 1) (accAt cfg obs ws t)

/-- Validity of the static configuration, exactly the four checks the spec
makes fatal: window size in `[1, n]`, `min_nobs` in `[k, window_size]`,
known covariance type, positive reset. -/
def validCfg (k : ℕ) (cfg : Config) (n : ℕ) : Prop :=
  1 ≤ cfg.window_size ∧ cfg.window_size ≤ n ∧
  k ≤ minN k cfg ∧ minN k cfg ≤ cfg.window_size ∧
  (cfg.cov_type = "nonrobust" ∨ cfg.cov_type = "hc0") ∧
  cfg.reset ≠ some 0

instance (k : ℕ) (cfg : Config) (n : ℕ) : Decidable (validCfg k cfg n) := by
  unfold validCfg; infer_instance

/-- Modelled from the spec: the absent engine's `fit` contract.  The static
checks fail fast, before any row is processed; otherwise one result per
input position is produced from the incrementally maintained accumulator. -/
def fit {k : ℕ} (cfg : Config) (obs : List (Obs k)) (ws : Option (List ℚ)) :
    Except ConfigurationError (List (PosResult k)) :=
  if ¬(1 ≤ cfg.window_size ∧ cfg.window_size ≤ obs.length) then
    .error .badWindowSize
  else if ¬(k ≤ minN k cfg ∧ minN k cfg ≤ cfg.window_size) then
    .error .badMinNobs
  else if ¬(cfg.cov_type = "nonrobust" ∨ cfg.cov_type = "hc0") then
    .error .badCovType
  else if cfg.reset = some 0 then
    .error .badReset
  else
    .ok ((List.range obs.length).map fun t =>
      fitWith cfg obs ws t (accAt cfg obs ws t).a (accAt cfg obs ws t).b)

/-- Modelled from the spec: the simpler from-scratch-per-window reference
implementation ("recompute the normal equations over the explicit window
slice every step"), kept as an oracle. -/
def fitScratch {k : ℕ} (cfg : Config) (obs : List (Obs k))
    (ws : Option (List ℚ)) : Except ConfigurationError (List (PosResult k)) :=
  if ¬(1 ≤ cfg.window_size ∧ cfg.window_size ≤ obs.length) then
    .error .badWindowSize
  else if ¬(k ≤ minN k cfg ∧ minN k cfg ≤ cfg.window_size) then
    .error .badMinNobs
  else if ¬(cfg.cov_type = "nonrobust" ∨ cfg.cov_type = "hc0") then
    .error .badCovType
  else if cfg.reset = some 0 then
    .error .badReset
  else
    .ok ((List.range obs.length).map (fitAt cfg obs ws))

/-- Erase the inference output (covariance and residual diagnostics) from a
result slot, keeping coefficients, counts and degrees of freedom. -/
def stripInference {k : ℕ} : PosResult k → PosResult k
  | .est d => .est ⟨d.params, d.nobs, d.df_resid, none, none⟩
  | r => r

/-- Result slot `t` of a fit outcome, `none` on configuration error or out
of range. -/
def resAt {k : ℕ} (e : Except ConfigurationError (List (PosResult k)))
    (t : ℕ) : Option (PosResult k) :=
  match e with
  | .ok l => l.get? t
  | .error _ => none

/-- Intercept (single coefficient) stored at slot `t` of a one-covariate
fit outcome, `none` when that slot holds no estimate. -/
def interceptAt (e : Except ConfigurationError (List (PosResult 1)))
    (t : ℕ) : Option ℚ :=
  match resAt e t with
  | some (.est d) => some (d.params 0)
  | _ => none

/-- Whether a result slot holds a (successfully solved) estimate. -/
def isEstimateB {k : ℕ} : PosResult k → Bool
  | .est _ => true
  | _ => false

/-- Whether a result slot records the singular-design error. -/
def isSingularB {k : ℕ} : PosResult k → Bool
  | .singular => true
  | _ => false

end Rolling

namespace DFM

/-!
Embedding of the `ExtendedDFM` subclass of the dynamic-factor notebook.

The subclass is constructed with `k_factors=1`, `factor_order=4`,
`error_order=2` over the four observed series, so the state vector is
`(f_t, f_{t-1}, f_{t-2}, f_{t-3}, u_{1..4,t}, u_{1..4,t-1})` (12 states)
and the parameter vector is laid out as: 4 factor loadings, 0 exogenous,
4 error variances, 4 factor AR coefficients (offset 8, so
`_params_factor_ar` is `[8,10)` and `_params_factor_zero` is `[10,12)`),
8 error AR coefficients, and the 3 extra loading parameters appended at
indexes 20-22.  Parameter vectors are total functions `ℕ → ℚ`; an index
slice read in the code is a read of those indexes.
-/

/-- Design and transition matrices of the state-space form (the parts of
the representation the `update` methods write). -/
structure SSM where
  design : Matrix (Fin 4) (Fin 12) ℚ
  transition : Matrix (Fin 12) (Fin 12) ℚ

/-- Base `DynamicFactor.update` with `factor_order=4`, as displayed in the
notebook's state-space equations: row `i` of the design holds loading
`p i` in column 0 and a 1 in column `4 + i`; the transition holds the four
factor AR coefficients `p 8 … p 11` in row 0, the factor lag shift in rows
1-3, the per-equation error AR coefficients in rows 4-7 and the error lag
shift in rows 8-11. -/
def dynamicFactorUpdate (p : ℕ → ℚ) : SSM where
  design := Matrix.of fun i j =>
    if (j : ℕ) = 0 then p (i : ℕ)
    else if (j : ℕ) = 4 + (i : ℕ) then 1
    else 0
  transition := Matrix.of fun r c =>
    if (r : ℕ) = 0 then (if (c : ℕ) < 4 then p (8 + (c : ℕ)) else 0)
    else if (r : ℕ) < 4 then (if (c : ℕ) + 1 = (r : ℕ) then 1 else 0)
    else if (r : ℕ) < 8 then
      (if (c : ℕ) = (r : ℕ) then p (12 + 2 * ((r : ℕ) - 4))
       else if (c : ℕ) = (r : ℕ) + 4 then p (13 + 2 * ((r : ℕ) - 4))
       else 0)
    else (if (c : ℕ) + 4 = (r : ℕ) then 1 else 0)

/-- The parameter vector `ExtendedDFM.update` works with after its optional
transformation step (`if not transformed: params = self.transform_params(params)`);
the transformation itself lives in the external library and is abstracted
as `τ`. -/
def appliedParams (τ : (ℕ → ℚ) → ℕ → ℚ) (params : ℕ → ℚ)
    (transformed : Bool) : ℕ → ℚ :=
  if transformed then params else τ params

/-- The assignment `params[self._params_factor_zero] = 0`: factor AR
coefficients at indexes 10 and 11 (lags 3 and 4) are forced to zero. -/
def zeroedParams (q : ℕ → ℚ) : ℕ → ℚ :=
  fun i => if i = 10 ∨ i = 11 then 0 else q i

/-- `ExtendedDFM.update`: transform if required, zero the factor AR
coefficients at lags 3 and 4, delegate to `DynamicFactor.update` on the
first 20 parameters, then write the three extra loading parameters
(`params[-3:]`, indexes 20-22) into row 3, columns 1-3 of the design
matrix (`self.ssm["design", 3, 1:4] = params[-3:]`). -/
def extendedDFMUpdate (τ : (ℕ → ℚ) → ℕ → ℚ) (params : ℕ → ℚ)
    (transformed : Bool) : SSM :=
  let p := zeroedParams (appliedParams τ params transformed)
  let base := dynamicFactorUpdate p
  { base with
      design := Matrix.of fun i j =>
        if (i : ℕ) = 3 ∧ 1 ≤ (j : ℕ) ∧ (j : ℕ) ≤ 3 then p (19 + (j : ℕ))
        else base.design i j }

end DFM

namespace Rolling

/-- Rows `i` of two inputs are interchangeable for fitting: either they hold
the same data and weight, or they are invalid (missing or zero-weight) in
both inputs. -/
def sameRowOK {k : ℕ} (obs obs' : List (Obs k)) (ws ws' : Option (List ℚ))
    (i : ℕ) : Prop :=
  (obs.getD i default = obs'.getD i default ∧ wAt ws i = wAt ws' i) ∨
  (validB obs ws i = false ∧ validB obs' ws' i = false)

instance {k : ℕ} (obs obs' : List (Obs k)) (ws ws' : Option (List ℚ))
    (i : ℕ) : Decidable (sameRowOK obs obs' ws ws' i) := by
  unfold sameRowOK; infer_instance

/-- Constant unit covariate (intercept-only design). -/
def xconst : Fin 1 → ℚ := fun _ => 1

/-- The spec's concrete scenario: ten rows, `y = 1, …, 10`, single constant
covariate. -/
def obsTen : List (Obs 1) :=
  [⟨some 1, some xconst⟩, ⟨some 2, some xconst⟩, ⟨some 3, some xconst⟩,
   ⟨some 4, some xconst⟩, ⟨some 5, some xconst⟩, ⟨some 6, some xconst⟩,
   ⟨some 7, some xconst⟩, ⟨some 8, some xconst⟩, ⟨some 9, some xconst⟩,
   ⟨some 10, some xconst⟩]

/-- Variant of the ten-row sample differing only at rows outside the window
ending at position 2 (rows 3 and 9 changed). -/
def obsTenAlt : List (Obs 1) :=
  [⟨some 1, some xconst⟩, ⟨some 2, some xconst⟩, ⟨some 3, some xconst⟩,
   ⟨some 40, some xconst⟩, ⟨some 5, some xconst⟩, ⟨some 6, some xconst⟩,
   ⟨some 7, some xconst⟩, ⟨some 8, some xconst⟩, ⟨some 9, some xconst⟩,
   ⟨some 99, some xconst⟩]

/-- Non-expanding window-3 configuration of the concrete scenario
(parameters-only path, so the estimate payloads are small). -/
def cfgA : Config := ⟨3, none, false, "nonrobust", true, none⟩

/-- Expanding window-3 configuration with `min_nobs = 1` of the concrete
scenario. -/
def cfgB : Config := ⟨3, some 1, true, "nonrobust", true, none⟩

/-- Expanding window-2 configuration with `min_nobs = 1`. -/
def cfgExp1 : Config := ⟨2, some 1, true, "nonrobust", true, none⟩

/-- Two rows whose first row is missing entirely. -/
def obsMiss2 : List (Obs 1) := [⟨none, none⟩, ⟨some 1, some xconst⟩]

/-- Window-1 configuration. -/
def cfgW1 : Config := ⟨1, none, false, "nonrobust", true, none⟩

/-- A single fully-missing row. -/
def obsMiss1 : List (Obs 1) := [⟨none, none⟩]

/-- Three rows whose middle row has a zero covariate, so the middle
(window-1) design is singular while its neighbours are regular. -/
def obsSing : List (Obs 1) :=
  [⟨some 1, some xconst⟩, ⟨some 1, some fun _ => 0⟩, ⟨some 1, some xconst⟩]

/-- A configuration with an invalid window size. -/
def cfgBadW : Config := ⟨0, none, false, "nonrobust", false, none⟩

/-- One valid row. -/
def obsOne : List (Obs 1) := [⟨some 1, some xconst⟩]

theorem sum_Icc_grow {M : Type*} [AddCommMonoid M] (f : ℕ → M) (t : ℕ) :
    ∑ i in Finset.Icc 0 (t + 1), f i = (∑ i in Finset.Icc 0 t, f i) + f (t + 1) :=
  Finset.sum_Icc_succ_top (Nat.zero_le _) f

theorem sum_Icc_roll {M : Type*} [AddCommGroup M] (f : ℕ → M) (w t : ℕ)
    (h : w ≤ t + 1) :
    ∑ i in Finset.Icc (t + 2 - w) (t + 1), f i
      = (∑ i in Finset.Icc (t + 1 - w) t, f i) + f (t + 1) - f (t + 1 - w) := by
  have ha : t + 1 - w ≤ t + 1 := by omega
  have h1 : ∑ i in Finset.Icc (t + 1 - w) (t + 1), f i
      = (∑ i in Finset.Icc (t + 1 - w) t, f i) + f (t + 1) :=
    Finset.sum_Icc_succ_top ha f
  have h2 : ∑ i in Finset.Icc (t + 1 - w) (t + 1), f i
      = f (t + 1 - w) + ∑ i in Finset.Icc (t + 1 - w + 1) (t + 1), f i := by
    rw [Finset.Icc_eq_cons_Ioc ha, Finset.sum_cons, ← Nat.Icc_succ_left]
  have h3 : t + 1 - w + 1 = t + 2 - w := by omega
  rw [h3] at h2
  rw [h2] at h1
  rw [eq_sub_iff_add_eq, add_comm]
  exact h1

theorem accAt_eq {k : ℕ} (cfg : Config) (obs : List (Obs k))
    (ws : Option (List ℚ)) (hw : 1 ≤ cfg.window_size) (t : ℕ) :
    accAt cfg obs ws t =
      ⟨sumA obs ws (lo cfg.window_size t) t, sumB obs ws (lo cfg.window_size t) t⟩ := by
  induction t with
  | zero =>
    have hw0 : ¬ cfg.window_size ≤ 0 := by omega
    have hlo : lo cfg.window_size 0 = 0 := by unfold lo; omega
    unfold accAt accStep
    cases hr : cfg.reset with
    | none =>
      simp only [hr, hw0, if_false, hlo]
      unfold sumA sumB
      simp [Finset.Icc_self]
    | some r =>
      simp only [hr, hw0, if_false, and_false, hlo]
      unfold sumA sumB
      simp [Finset.Icc_self]
  | succ t ih =>
    have hsucc : accAt cfg obs ws (t + 1) = accStep cfg obs ws (t + 1) (accAt cfg obs ws t) := rfl
    rw [hsucc, ih]
    unfold accStep
    by_cases hsub : cfg.window_size ≤ t + 1
    · have hA : sumA obs ws (lo cfg.window_size (t + 1)) (t + 1)
          = sumA obs ws (lo cfg.window_size t) t
            + rowA (obs.getD (t + 1) default) (wAt ws (t + 1))
            - rowA (obs.getD (t + 1 - cfg.window_size) default) (wAt ws (t + 1 - cfg.window_size)) := by
        unfold sumA lo
        exact sum_Icc_roll _ cfg.window_size t hsub
      have hB : sumB obs ws (lo cfg.window_size (t + 1)) (t + 1)
          = sumB obs ws (lo cfg.window_size t) t
            + rowB (obs.getD (t + 1) default) (wAt ws (t + 1))
            - rowB (obs.getD (t + 1 - cfg.window_size) default) (wAt ws (t + 1 - cfg.window_size)) := by
        unfold sumB lo
        exact sum_Icc_roll _ cfg.window_size t hsub
      cases hr : cfg.reset with
      | none => simp only [hr, hsub, if_true, hA, hB]
      | some r =>
        by_cases hmod : (t + 1) % r = 0
        · simp only [hr, hsub, hmod, true_and, if_true]
        · simp only [hr, hsub, hmod, false_and, if_false, if_true, hA, hB]
    · have h0 : lo cfg.window_size t = 0 := by unfold lo; omega
      have h1 : lo cfg.window_size (t + 1) = 0 := by unfold lo; omega
      have hA : sumA obs ws (lo cfg.window_size (t + 1)) (t + 1)
          = sumA obs ws (lo cfg.window_size t) t
            + rowA (obs.getD (t + 1) default) (wAt ws (t + 1)) := by
        rw [h0, h1]; unfold sumA
        exact sum_Icc_grow _ t
      have hB : sumB obs ws (lo cfg.window_size (t + 1)) (t + 1)
          = sumB obs ws (lo cfg.window_size t) t
            + rowB (obs.getD (t + 1) default) (wAt ws (t + 1)) := by
        rw [h0, h1]; unfold sumB
        exact sum_Icc_grow _ t
      cases hr : cfg.reset with
      | none => simp only [hr, hsub, if_false, hA, hB]
      | some r => simp only [hr, hsub, and_false, if_false, hA, hB]

end Rolling

namespace Rolling

theorem validB_congr {k : ℕ} {obs obs' : List (Obs k)} {ws ws' : Option (List ℚ)}
    {i : ℕ} (h : sameRowOK obs obs' ws ws' i) :
    validB obs ws i = validB obs' ws' i := by
  rcases h with ⟨h1, h2⟩ | ⟨h1, h2⟩
  · unfold validB; rw [h1, h2]
  · rw [h1, h2]

theorem rowA_zero {k : ℕ} {obs : List (Obs k)} {ws : Option (List ℚ)} {i : ℕ}
    (h : validB obs ws i = false) :
    rowA (obs.getD i default) (wAt ws i) = 0 := by
  unfold validB at h
  unfold rowA
  rcases hy : (obs.getD i default).y with _ | yv <;>
    rcases hx : (obs.getD i default).x with _ | xv <;>
      simp only [hy, hx] at h ⊢
  · simp at h
    rw [h]
    exact zero_smul _ _

theorem rowB_zero {k : ℕ} {obs : List (Obs k)} {ws : Option (List ℚ)} {i : ℕ}
    (h : validB obs ws i = false) :
    rowB (obs.getD i default) (wAt ws i) = 0 := by
  unfold validB at h
  unfold rowB
  rcases hy : (obs.getD i default).y with _ | yv <;>
    rcases hx : (obs.getD i default).x with _ | xv <;>
      simp only [hy, hx] at h ⊢
  · simp at h
    funext j
    simp [h]

theorem sumA_congr {k : ℕ} {obs obs' : List (Obs k)} {ws ws' : Option (List ℚ)}
    {a b : ℕ} (h : ∀ i ∈ Finset.Icc a b, sameRowOK obs obs' ws ws' i) :
    sumA obs ws a b = sumA obs' ws' a b :=
  Finset.sum_congr rfl fun i hi => by
    rcases h i hi with ⟨h1, h2⟩ | ⟨h1, h2⟩
    · rw [h1, h2]
    · rw [rowA_zero h1, rowA_zero h2]

theorem sumB_congr {k : ℕ} {obs obs' : List (Obs k)} {ws ws' : Option (List ℚ)}
    {a b : ℕ} (h : ∀ i ∈ Finset.Icc a b, sameRowOK obs obs' ws ws' i) :
    sumB obs ws a b = sumB obs' ws' a b :=
  Finset.sum_congr rfl fun i hi => by
    rcases h i hi with ⟨h1, h2⟩ | ⟨h1, h2⟩
    · rw [h1, h2]
    · rw [rowB_zero h1, rowB_zero h2]

theorem filterValid_congr {k : ℕ} {obs obs' : List (Obs k)}
    {ws ws' : Option (List ℚ)} {a b : ℕ}
    (h : ∀ i ∈ Finset.Icc a b, sameRowOK obs obs' ws ws' i) :
    (Finset.Icc a b).filter (fun i => validB obs ws i = true)
      = (Finset.Icc a b).filter (fun i => validB obs' ws' i = true) :=
  Finset.filter_congr fun i hi => by rw [validB_congr (h i hi)]

theorem nvalid_congr {k : ℕ} {obs obs' : List (Obs k)} {ws ws' : Option (List ℚ)}
    {a b : ℕ} (h : ∀ i ∈ Finset.Icc a b, sameRowOK obs obs' ws ws' i) :
    nvalid obs ws a b = nvalid obs' ws' a b := by
  unfold nvalid
  rw [filterValid_congr h]

theorem ssrWin_congr {k : ℕ} {obs obs' : List (Obs k)} {ws ws' : Option (List ℚ)}
    {a b : ℕ} (h : ∀ i ∈ Finset.Icc a b, sameRowOK obs obs' ws ws' i)
    (β : Fin k → ℚ) :
    ssrWin obs ws a b β = ssrWin obs' ws' a b β := by
  unfold ssrWin
  rw [filterValid_congr h]
  refine Finset.sum_congr rfl fun i hi => ?_
  have hmem := Finset.mem_filter.mp hi
  rcases h i hmem.1 with ⟨h1, h2⟩ | ⟨h1, h2⟩
  · rw [h1, h2]
  · exact absurd hmem.2 (by simp [h2])

theorem meatWin_congr {k : ℕ} {obs obs' : List (Obs k)} {ws ws' : Option (List ℚ)}
    {a b : ℕ} (h : ∀ i ∈ Finset.Icc a b, sameRowOK obs obs' ws ws' i)
    (β : Fin k → ℚ) :
    meatWin obs ws a b β = meatWin obs' ws' a b β := by
  unfold meatWin
  rw [filterValid_congr h]
  refine Finset.sum_congr rfl fun i hi => ?_
  have hmem := Finset.mem_filter.mp hi
  rcases h i hmem.1 with ⟨h1, h2⟩ | ⟨h1, h2⟩
  · rw [h1]
  · exact absurd hmem.2 (by simp [h2])

theorem covOf_congr {k : ℕ} (cfg : Config) {obs obs' : List (Obs k)}
    {ws ws' : Option (List ℚ)} {a t : ℕ}
    (h : ∀ i ∈ Finset.Icc a t, sameRowOK obs obs' ws ws' i)
    (A : Matrix (Fin k) (Fin k) ℚ) (b : Fin k → ℚ) :
    covOf cfg obs ws a t A b = covOf cfg obs' ws' a t A b := by
  unfold covOf
  rw [ssrWin_congr h, meatWin_congr h, nvalid_congr h]

theorem fitAt_congr {k : ℕ} (cfg : Config) {obs obs' : List (Obs k)}
    {ws ws' : Option (List ℚ)} (t : ℕ)
    (h : ∀ i ∈ Finset.Icc (lo cfg.window_size t) t, sameRowOK obs obs' ws ws' i) :
    fitAt cfg obs ws t = fitAt cfg obs' ws' t := by
  unfold fitAt fitWith
  rw [sumA_congr h, sumB_congr h, nvalid_congr h, ssrWin_congr h, covOf_congr cfg h]

end Rolling

namespace Rolling

theorem fit_eq_map_fitAt {k : ℕ} (cfg : Config) (obs : List (Obs k))
    (ws : Option (List ℚ)) (hv : validCfg k cfg obs.length) :
    fit cfg obs ws = Except.ok ((List.range obs.length).map (fitAt cfg obs ws)) := by
  obtain ⟨h1, h2, h3, h4, h5, h6⟩ := hv
  unfold fit
  rw [if_neg (not_not_intro ⟨h1, h2⟩), if_neg (not_not_intro ⟨h3, h4⟩),
    if_neg (not_not_intro h5), if_neg h6]
  congr 1
  apply List.map_congr_left
  intro t ht
  rw [accAt_eq cfg obs ws h1 t]
  rfl

theorem fitScratch_eq_map_fitAt {k : ℕ} (cfg : Config) (obs : List (Obs k))
    (ws : Option (List ℚ)) (hv : validCfg k cfg obs.length) :
    fitScratch cfg obs ws
      = Except.ok ((List.range obs.length).map (fitAt cfg obs ws)) := by
  obtain ⟨h1, h2, h3, h4, h5, h6⟩ := hv
  unfold fitScratch
  rw [if_neg (not_not_intro ⟨h1, h2⟩), if_neg (not_not_intro ⟨h3, h4⟩),
    if_neg (not_not_intro h5), if_neg h6]

theorem resAt_fit {k : ℕ} (cfg : Config) (obs : List (Obs k))
    (ws : Option (List ℚ)) (hv : validCfg k cfg obs.length) {t : ℕ}
    (ht : t < obs.length) :
    resAt (fit cfg obs ws) t = some (fitAt cfg obs ws t) := by
  rw [fit_eq_map_fitAt cfg obs ws hv]
  show ((List.range obs.length).map (fitAt cfg obs ws)).get? t
      = some (fitAt cfg obs ws t)
  rw [List.get?_eq_getElem?, List.getElem?_map, List.getElem?_range ht]
  rfl

theorem fit_ok_get {k : ℕ} (cfg : Config) (obs : List (Obs k))
    (ws : Option (List ℚ)) (hv : validCfg k cfg obs.length)
    {rs : List (PosResult k)} (hfit : fit cfg obs ws = Except.ok rs) {t : ℕ}
    (ht : t < obs.length) :
    rs.get? t = some (fitAt cfg obs ws t) := by
  have h := resAt_fit cfg obs ws hv ht
  rw [hfit] at h
  exact h

end Rolling

namespace Rolling

theorem wAt_none (i : ℕ) : wAt none i = 1 := rfl

theorem sum_Icc_same {M : Type*} [AddCommMonoid M] (f : ℕ → M) (a : ℕ) :
    ∑ i in Finset.Icc a a, f i = f a := by
  rw [Finset.Icc_self, Finset.sum_singleton]

theorem sum_Icc_two {M : Type*} [AddCommMonoid M] (f : ℕ → M) (a : ℕ) :
    ∑ i in Finset.Icc a (a + 1), f i = f a + f (a + 1) := by
  rw [Finset.sum_Icc_succ_top (by omega), sum_Icc_same]

theorem sum_Icc_three {M : Type*} [AddCommMonoid M] (f : ℕ → M) (a : ℕ) :
    ∑ i in Finset.Icc a (a + 2), f i = f a + f (a + 1) + f (a + 2) := by
  rw [show a + 2 = (a + 1) + 1 from rfl, Finset.sum_Icc_succ_top (by omega),
    sum_Icc_two]

theorem fit_eq_fitScratch {k : ℕ} (cfg : Config) (obs : List (Obs k))
    (ws : Option (List ℚ)) : fit cfg obs ws = fitScratch cfg obs ws := by
  unfold fit fitScratch
  by_cases hc1 : 1 ≤ cfg.window_size ∧ cfg.window_size ≤ obs.length
  · rw [if_neg (not_not_intro hc1), if_neg (not_not_intro hc1)]
    split_ifs
    all_goals try rfl
    all_goals
      congr 1
      apply List.map_congr_left
      intro t ht
      rw [accAt_eq cfg obs ws hc1.1 t]
      rfl
  · rw [if_pos hc1, if_pos hc1]

theorem fitWith_strip {k : ℕ} (cfg : Config) (obs : List (Obs k))
    (ws : Option (List ℚ)) (t : ℕ) (A : Matrix (Fin k) (Fin k) ℚ)
    (b : Fin k → ℚ) :
    fitWith {cfg with params_only := true} obs ws t A b
      = stripInference (fitWith {cfg with params_only := false} obs ws t A b) := by
  unfold fitWith minN covOf stripInference
  dsimp only
  split_ifs <;> simp_all

end Rolling

namespace Rolling

theorem mulVec_solveβ {k : ℕ} (A : Matrix (Fin k) (Fin k) ℚ) (b : Fin k → ℚ)
    (h : A.det ≠ 0) : A.mulVec (solveβ A b) = b := by
  unfold solveβ
  rw [Matrix.mulVec_smul, Matrix.mulVec_cramer, smul_smul, inv_mul_cancel₀ h,
    one_smul]

theorem solveβ_one (a bq : ℚ) :
    solveβ (Matrix.of fun (_ _ : Fin 1) => a) (fun (_ : Fin 1) => bq)
      = fun (_ : Fin 1) => a⁻¹ * bq := by
  have hdet : (Matrix.of fun (_ _ : Fin 1) => a).det = a := by
    rw [Matrix.det_fin_one, Matrix.of_apply]
  funext i
  unfold solveβ
  rw [Pi.smul_apply, Matrix.cramer_apply, hdet]
  have hi : i = 0 := Subsingleton.elim _ _
  subst hi
  rw [Matrix.det_fin_one, Matrix.updateColumn_self, smul_eq_mul]

theorem fitAt_eval_one (cfg : Config) (obs : List (Obs 1)) (ws : Option (List ℚ))
    (t : ℕ) (a bq : ℚ)
    (hc1 : ¬(cfg.expanding = false ∧ t + 1 < cfg.window_size))
    (hc2 : ¬(nvalid obs ws (lo cfg.window_size t) t < minN 1 cfg))
    (hpo : cfg.params_only = true)
    (hA : sumA obs ws (lo cfg.window_size t) t = Matrix.of fun _ _ => a)
    (hB : sumB obs ws (lo cfg.window_size t) t = fun _ => bq)
    (ha : a ≠ 0) :
    fitAt cfg obs ws t
      = PosResult.est ⟨fun _ => a⁻¹ * bq, nvalid obs ws (lo cfg.window_size t) t,
          nvalid obs ws (lo cfg.window_size t) t - 1, none, none⟩ := by
  have hdet : (Matrix.of fun (_ _ : Fin 1) => a).det = a := by
    rw [Matrix.det_fin_one, Matrix.of_apply]
  unfold fitAt fitWith
  rw [hA, hB, if_neg hc1, if_neg hc2, hdet, if_neg ha, hpo, if_pos rfl,
    solveβ_one]

end Rolling

namespace Rolling

/-- C1: for every non-expanding fit with window size `w` over `n` rows, the
slot at every position `t < w - 1` is the "no estimate" sentinel, and the
slot at every position `w - 1 ≤ t ≤ n - 1` is computed from exactly the rows
(and weights) with indices in `[t - w + 1, t]`: two inputs agreeing there
yield the same stored result. -/
theorem rolling_nonexpanding_alignment {k : ℕ} (cfg : Config)
    (obs obs' : List (Obs k)) (ws ws' : Option (List ℚ))
    (rs rs' : List (PosResult k)) (t : ℕ)
    (hv : validCfg k cfg obs.length)
    (hexp : cfg.expanding = false)
    (hn : obs'.length = obs.length)
    (hfit : fit cfg obs ws = Except.ok rs)
    (hfit' : fit cfg obs' ws' = Except.ok rs')
    (ht : t < obs.length) :
    (t + 1 < cfg.window_size → rs.get? t = some PosResult.noEstimate)
    ∧ (cfg.window_size - 1 ≤ t →
        (∀ i ∈ Finset.Icc (t + 1 - cfg.window_size) t,
          obs.getD i default = obs'.getD i default ∧ wAt ws i = wAt ws' i) →
        rs.get? t = rs'.get? t) := by
  have hv' : validCfg k cfg obs'.length := by rw [hn]; exact hv
  constructor
  · intro hlt
    rw [fit_ok_get cfg obs ws hv hfit ht]
    unfold fitAt fitWith
    rw [if_pos ⟨hexp, hlt⟩]
  · intro _ hagree
    rw [fit_ok_get cfg obs ws hv hfit ht,
      fit_ok_get cfg obs' ws' hv' hfit' (by omega)]
    exact congrArg some (fitAt_congr cfg t fun i hi =>
      Or.inl (hagree i (by simpa [lo] using hi)))

/-- C5: the slot stored at position `t` depends only on rows with indices
at most `t` (no look-ahead), and rows that are missing or zero-weight are
excluded rather than imputed: their content is irrelevant, as any two
inputs whose rows up to `t` are either equal or invalid in both yield the
same stored result. -/
theorem rolling_no_lookahead {k : ℕ} (cfg : Config) (obs obs' : List (Obs k))
    (ws ws' : Option (List ℚ)) (rs rs' : List (PosResult k)) (t : ℕ)
    (hv : validCfg k cfg obs.length)
    (hn : obs'.length = obs.length)
    (hfit : fit cfg obs ws = Except.ok rs)
    (hfit' : fit cfg obs' ws' = Except.ok rs')
    (ht : t < obs.length)
    (hagree : ∀ i, i ≤ t → sameRowOK obs obs' ws ws' i) :
    rs.get? t = rs'.get? t := by
  have hv' : validCfg k cfg obs'.length := by rw [hn]; exact hv
  rw [fit_ok_get cfg obs ws hv hfit ht,
    fit_ok_get cfg obs' ws' hv' hfit' (by omega)]
  exact congrArg some (fitAt_congr cfg t fun i hi =>
    hagree i (Finset.mem_Icc.mp hi).2)

/-- C4: the incremental add/subtract accumulation without `reset` produces,
at every output position, exactly the same fit (exact arithmetic) as the
from-scratch reference recomputing the normal equations over the explicit
window slice at every step, and setting `reset := 1` selects exactly that
from-scratch behaviour. -/
theorem rolling_incremental_matches_reference {k : ℕ}
    (w : ℕ) (mn : Option ℕ) (exp : Bool) (cov : String) (po : Bool)
    (obs : List (Obs k)) (ws : Option (List ℚ)) :
    fit ⟨w, mn, exp, cov, po, none⟩ obs ws
      = fitScratch ⟨w, mn, exp, cov, po, none⟩ obs ws
    ∧ fit ⟨w, mn, exp, cov, po, some 1⟩ obs ws
      = fitScratch ⟨w, mn, exp, cov, po, some 1⟩ obs ws
    ∧ fit ⟨w, mn, exp, cov, po, none⟩ obs ws
      = fit ⟨w, mn, exp, cov, po, some 1⟩ obs ws := by
  refine ⟨fit_eq_fitScratch _ obs ws, fit_eq_fitScratch _ obs ws, ?_⟩
  by_cases h1 : 1 ≤ w ∧ w ≤ obs.length
  · by_cases h2 : k ≤ mn.getD k ∧ mn.getD k ≤ w
    · by_cases h3 : cov = "nonrobust" ∨ cov = "hc0"
      · rw [fit_eq_map_fitAt ⟨w, mn, exp, cov, po, none⟩ obs ws
            ⟨h1.1, h1.2, h2.1, h2.2, h3, by simp⟩,
          fit_eq_map_fitAt ⟨w, mn, exp, cov, po, some 1⟩ obs ws
            ⟨h1.1, h1.2, h2.1, h2.2, h3, by simp⟩]
        rfl
      · unfold fit
        dsimp only [minN]
        rw [if_neg (not_not_intro h1), if_neg (not_not_intro h1),
          if_neg (not_not_intro h2), if_neg (not_not_intro h2),
          if_pos h3, if_pos h3]
    · unfold fit
      dsimp only [minN]
      rw [if_neg (not_not_intro h1), if_neg (not_not_intro h1),
        if_pos h2, if_pos h2]
  · unfold fit
    dsimp only
    rw [if_pos h1, if_pos h1]

/-- C9: the parameters-only fast path returns, at every output position,
exactly the coefficient vector (and counts) of the full computation, with
the covariance matrix and residual diagnostics omitted. -/
theorem rolling_params_only_refines {k : ℕ}
    (w : ℕ) (mn : Option ℕ) (exp : Bool) (cov : String) (r : Option ℕ)
    (obs : List (Obs k)) (ws : Option (List ℚ)) :
    fit ⟨w, mn, exp, cov, true, r⟩ obs ws
      = Except.map (List.map stripInference)
          (fit ⟨w, mn, exp, cov, false, r⟩ obs ws) := by
  unfold fit
  dsimp only [minN]
  split_ifs with h1 h2 h3 h4
  any_goals rfl
  show Except.ok _ = Except.ok _
  congr 1
  rw [List.map_map]
  apply List.map_congr_left
  intro t ht
  dsimp only [Function.comp]
  have hw : 1 ≤ w := by omega
  rw [accAt_eq ⟨w, mn, exp, cov, true, r⟩ obs ws hw t,
    accAt_eq ⟨w, mn, exp, cov, false, r⟩ obs ws hw t]
  dsimp only
  exact fitWith_strip ⟨w, mn, exp, cov, false, r⟩ obs ws t _ _

end Rolling

namespace Rolling

/-- C6: every invalid static configuration (window size outside `[1, n]`,
effective `min_nobs` outside `[k, window_size]`, unknown covariance type, or
non-positive reset) makes `fit` fail with a `ConfigurationError` before any
per-position result is produced (the error constructor carries no results,
and the pure model leaves the immutable inputs untouched). -/
theorem rolling_config_fail_fast {k : ℕ} (cfg : Config) (obs : List (Obs k))
    (ws : Option (List ℚ))
    (hbad : cfg.window_size < 1 ∨ obs.length < cfg.window_size
      ∨ minN k cfg < k ∨ cfg.window_size < minN k cfg
      ∨ (cfg.cov_type ≠ "nonrobust" ∧ cfg.cov_type ≠ "hc0")
      ∨ cfg.reset = some 0) :
    ∃ e, fit cfg obs ws = Except.error e := by
  unfold fit
  split_ifs with h1 h2 h3 h4
  any_goals exact ⟨_, rfl⟩
  exfalso
  rcases hbad with h | h | h | h | h | h
  · omega
  · omega
  · omega
  · omega
  · rcases h3 with h3 | h3
    · exact h.1 h3
    · exact h.2 h3
  · exact h4 h

/-- C7: when the design accumulated for the window ending at `t` is singular
while that window reaches the solve step, the failure is confined to slot
`t`: that slot records the singular-design error and every other slot equals
its own independent from-scratch per-window fit, exactly as if window `t`
had not failed. -/
theorem rolling_singular_localized {k : ℕ} (cfg : Config) (obs : List (Obs k))
    (ws : Option (List ℚ)) (rs : List (PosResult k)) (t : ℕ)
    (hv : validCfg k cfg obs.length)
    (hfit : fit cfg obs ws = Except.ok rs)
    (ht : t < obs.length)
    (hpre : ¬(cfg.expanding = false ∧ t + 1 < cfg.window_size))
    (hcnt : ¬(nvalid obs ws (lo cfg.window_size t) t < minN k cfg))
    (hdet : (sumA obs ws (lo cfg.window_size t) t).det = 0) :
    rs.get? t = some PosResult.singular
    ∧ ∀ s, s < obs.length → s ≠ t → rs.get? s = some (fitAt cfg obs ws s) := by
  constructor
  · rw [fit_ok_get cfg obs ws hv hfit ht]
    unfold fitAt fitWith
    rw [if_neg hpre, if_neg hcnt, if_pos hdet]
  · intro s hs _
    exact fit_ok_get cfg obs ws hv hfit hs

/-- C8 (amended): a window with fewer than `k` valid rows never reaches the
solve step: because `min_nobs ≥ k` always holds in a valid configuration,
such a window stores the "no estimate" sentinel — never a silently computed
coefficient vector (and not the singular-design error the claim expected). -/
theorem rolling_underdetermined_amended {k : ℕ} (cfg : Config)
    (obs : List (Obs k)) (ws : Option (List ℚ)) (rs : List (PosResult k))
    (t : ℕ)
    (hv : validCfg k cfg obs.length)
    (hfit : fit cfg obs ws = Except.ok rs)
    (ht : t < obs.length)
    (hfew : nvalid obs ws (lo cfg.window_size t) t < k) :
    rs.get? t = some PosResult.noEstimate := by
  have hcnt : nvalid obs ws (lo cfg.window_size t) t < minN k cfg :=
    lt_of_lt_of_le hfew hv.2.2.1
  rw [fit_ok_get cfg obs ws hv hfit ht]
  unfold fitAt fitWith
  by_cases h1 : cfg.expanding = false ∧ t + 1 < cfg.window_size
  · rw [if_pos h1]
  · rw [if_neg h1, if_pos hcnt]

theorem rowA_val (yv : ℚ) (xv : Fin 1 → ℚ) (w : ℚ) :
    rowA ⟨some yv, some xv⟩ w = w • Matrix.vecMulVec xv xv := rfl

theorem rowB_val (yv : ℚ) (xv : Fin 1 → ℚ) (w : ℚ) :
    rowB ⟨some yv, some xv⟩ w = fun i => w * yv * xv i := rfl

theorem sumA_ten_0_2 : sumA obsTen none 0 2 = Matrix.of fun _ _ => (3 : ℚ) := by
  unfold sumA
  rw [show Finset.Icc (0 : ℕ) 2 = {0, 1, 2} from rfl,
    Finset.sum_insert (by decide), Finset.sum_insert (by decide),
    Finset.sum_singleton,
    show obsTen.getD 0 default = ⟨some 1, some xconst⟩ from rfl,
    show obsTen.getD 1 default = ⟨some 2, some xconst⟩ from rfl,
    show obsTen.getD 2 default = ⟨some 3, some xconst⟩ from rfl,
    rowA_val, rowA_val, rowA_val]
  ext i j
  simp [wAt, xconst, Matrix.vecMulVec_apply]
  norm_num

theorem sumB_ten_0_2 : sumB obsTen none 0 2 = fun _ => (6 : ℚ) := by
  unfold sumB
  rw [show Finset.Icc (0 : ℕ) 2 = {0, 1, 2} from rfl,
    Finset.sum_insert (by decide), Finset.sum_insert (by decide),
    Finset.sum_singleton,
    show obsTen.getD 0 default = ⟨some 1, some xconst⟩ from rfl,
    show obsTen.getD 1 default = ⟨some 2, some xconst⟩ from rfl,
    show obsTen.getD 2 default = ⟨some 3, some xconst⟩ from rfl,
    rowB_val, rowB_val, rowB_val]
  funext i
  simp [wAt, xconst]
  norm_num

theorem sumA_ten_7_9 : sumA obsTen none 7 9 = Matrix.of fun _ _ => (3 : ℚ) := by
  unfold sumA
  rw [show Finset.Icc (7 : ℕ) 9 = {7, 8, 9} from rfl,
    Finset.sum_insert (by decide), Finset.sum_insert (by decide),
    Finset.sum_singleton,
    show obsTen.getD 7 default = ⟨some 8, some xconst⟩ from rfl,
    show obsTen.getD 8 default = ⟨some 9, some xconst⟩ from rfl,
    show obsTen.getD 9 default = ⟨some 10, some xconst⟩ from rfl,
    rowA_val, rowA_val, rowA_val]
  ext i j
  simp [wAt, xconst, Matrix.vecMulVec_apply]
  norm_num

theorem sumB_ten_7_9 : sumB obsTen none 7 9 = fun _ => (27 : ℚ) := by
  unfold sumB
  rw [show Finset.Icc (7 : ℕ) 9 = {7, 8, 9} from rfl,
    Finset.sum_insert (by decide), Finset.sum_insert (by decide),
    Finset.sum_singleton,
    show obsTen.getD 7 default = ⟨some 8, some xconst⟩ from rfl,
    show obsTen.getD 8 default = ⟨some 9, some xconst⟩ from rfl,
    show obsTen.getD 9 default = ⟨some 10, some xconst⟩ from rfl,
    rowB_val, rowB_val, rowB_val]
  funext i
  simp [wAt, xconst]
  norm_num

theorem sumA_ten_0_0 : sumA obsTen none 0 0 = Matrix.of fun _ _ => (1 : ℚ) := by
  unfold sumA
  rw [sum_Icc_same, show obsTen.getD 0 default = ⟨some 1, some xconst⟩ from rfl,
    rowA_val]
  ext i j
  simp [wAt, xconst, Matrix.vecMulVec_apply]

theorem sumB_ten_0_0 : sumB obsTen none 0 0 = fun _ => (1 : ℚ) := by
  unfold sumB
  rw [sum_Icc_same, show obsTen.getD 0 default = ⟨some 1, some xconst⟩ from rfl,
    rowB_val]
  funext i
  simp [wAt, xconst]

theorem sumA_ten_0_1 : sumA obsTen none 0 1 = Matrix.of fun _ _ => (2 : ℚ) := by
  unfold sumA
  rw [show Finset.Icc (0 : ℕ) 1 = {0, 1} from rfl,
    Finset.sum_insert (by decide), Finset.sum_singleton,
    show obsTen.getD 0 default = ⟨some 1, some xconst⟩ from rfl,
    show obsTen.getD 1 default = ⟨some 2, some xconst⟩ from rfl,
    rowA_val, rowA_val]
  ext i j
  simp [wAt, xconst, Matrix.vecMulVec_apply]
  norm_num

theorem sumB_ten_0_1 : sumB obsTen none 0 1 = fun _ => (3 : ℚ) := by
  unfold sumB
  rw [show Finset.Icc (0 : ℕ) 1 = {0, 1} from rfl,
    Finset.sum_insert (by decide), Finset.sum_singleton,
    show obsTen.getD 0 default = ⟨some 1, some xconst⟩ from rfl,
    show obsTen.getD 1 default = ⟨some 2, some xconst⟩ from rfl,
    rowB_val, rowB_val]
  funext i
  simp [wAt, xconst]
  norm_num

theorem sumA_miss2_0_1 : sumA obsMiss2 none 0 1 = Matrix.of fun _ _ => (1 : ℚ) := by
  unfold sumA
  rw [show Finset.Icc (0 : ℕ) 1 = {0, 1} from rfl,
    Finset.sum_insert (by decide), Finset.sum_singleton,
    show obsMiss2.getD 0 default = ⟨none, none⟩ from rfl,
    show obsMiss2.getD 1 default = ⟨some 1, some xconst⟩ from rfl,
    rowA_val]
  ext i j
  simp [rowA, wAt, xconst, Matrix.vecMulVec_apply]

theorem sumB_miss2_0_1 : sumB obsMiss2 none 0 1 = fun _ => (1 : ℚ) := by
  unfold sumB
  rw [show Finset.Icc (0 : ℕ) 1 = {0, 1} from rfl,
    Finset.sum_insert (by decide), Finset.sum_singleton,
    show obsMiss2.getD 0 default = ⟨none, none⟩ from rfl,
    show obsMiss2.getD 1 default = ⟨some 1, some xconst⟩ from rfl,
    rowB_val]
  funext i
  simp [rowB, wAt, xconst]

theorem sumA_sing_det : (sumA obsSing none 1 1).det = 0 := by
  unfold sumA
  rw [sum_Icc_same,
    show obsSing.getD 1 default = ⟨some 1, some fun _ => 0⟩ from rfl,
    rowA_val, Matrix.det_fin_one]
  simp [Matrix.vecMulVec_apply]

theorem interceptAt_eval (cfg : Config) (obs : List (Obs 1)) (t : ℕ)
    (hv : validCfg 1 cfg obs.length) (ht : t < obs.length)
    (d : EstimateData 1)
    (hfa : fitAt cfg obs none t = PosResult.est d) :
    interceptAt (fit cfg obs none) t = some (d.params 0) := by
  unfold interceptAt
  rw [resAt_fit cfg obs none hv ht, hfa]

end Rolling

namespace Rolling

/-- C2 (amended): in expanding mode with effective minimum `m = min_nobs`,
no position before `m - 1` ever holds an estimate; when the first `m` rows
are all valid and their design is nonsingular, position `m - 1` holds an
estimate, and that slot is computed from exactly rows `[0, m - 1]`; the
window ending at each position `t` spans `min (t + 1, window_size)` indices,
growing by one row per position until it reaches `window_size`.  (The
unamended claim that the first estimate always appears at `m - 1` fails
when early rows are missing.) -/
theorem rolling_expanding_start_amended {k : ℕ} (cfg : Config)
    (obs obs' : List (Obs k)) (ws ws' : Option (List ℚ))
    (rs rs' : List (PosResult k))
    (hk : 1 ≤ k)
    (hv : validCfg k cfg obs.length)
    (hexp : cfg.expanding = true)
    (hn : obs'.length = obs.length)
    (hfit : fit cfg obs ws = Except.ok rs)
    (hfit' : fit cfg obs' ws' = Except.ok rs') :
    (∀ t, t < obs.length → t + 1 < minN k cfg →
      rs.get? t = some PosResult.noEstimate)
    ∧ (minN k cfg - 1 < obs.length →
        (∀ i, i < minN k cfg → validB obs ws i = true) →
        (sumA obs ws 0 (minN k cfg - 1)).det ≠ 0 →
        (rs.get? (minN k cfg - 1)).map isEstimateB = some true)
    ∧ (minN k cfg - 1 < obs.length →
        (∀ i ∈ Finset.Icc 0 (minN k cfg - 1),
          obs.getD i default = obs'.getD i default ∧ wAt ws i = wAt ws' i) →
        rs.get? (minN k cfg - 1) = rs'.get? (minN k cfg - 1))
    ∧ (∀ t, (Finset.Icc (lo cfg.window_size t) t).card
        = min (t + 1) cfg.window_size) := by
  obtain ⟨hw1, hw2, hm1, hm2, _, _⟩ := hv
  have hv' : validCfg k cfg obs'.length := by
    rw [hn]; exact ⟨hw1, hw2, hm1, hm2, by assumption, by assumption⟩
  have hvv : validCfg k cfg obs.length :=
    ⟨hw1, hw2, hm1, hm2, by assumption, by assumption⟩
  have hlo : lo cfg.window_size (minN k cfg - 1) = 0 := by
    unfold lo; omega
  refine ⟨?_, ?_, ?_, ?_⟩
  · intro t ht hm
    rw [fit_ok_get cfg obs ws hvv hfit ht]
    have hcnt : nvalid obs ws (lo cfg.window_size t) t < minN k cfg := by
      have hle : nvalid obs ws (lo cfg.window_size t) t ≤ t + 1 := by
        unfold nvalid
        calc ((Finset.Icc (lo cfg.window_size t) t).filter
              (fun i => validB obs ws i = true)).card
            ≤ (Finset.Icc (lo cfg.window_size t) t).card :=
              Finset.card_filter_le _ _
          _ = t + 1 - lo cfg.window_size t := Nat.card_Icc _ _
          _ ≤ t + 1 := by omega
      omega
    unfold fitAt fitWith
    by_cases h1 : cfg.expanding = false ∧ t + 1 < cfg.window_size
    · rw [if_pos h1]
    · rw [if_neg h1, if_pos hcnt]
  · intro hm hval hdet
    rw [fit_ok_get cfg obs ws hvv hfit hm, Option.map_some']
    have hc1 : ¬(cfg.expanding = false ∧
        minN k cfg - 1 + 1 < cfg.window_size) := by
      simp [hexp]
    have hcnt : nvalid obs ws 0 (minN k cfg - 1) = minN k cfg := by
      unfold nvalid
      rw [Finset.filter_true_of_mem, Nat.card_Icc]
      · omega
      · intro i hi
        have := (Finset.mem_Icc.mp hi).2
        exact hval i (by omega)
    have hest : isEstimateB (fitAt cfg obs ws (minN k cfg - 1)) = true := by
      unfold fitAt fitWith
      rw [hlo, if_neg hc1, if_neg (by rw [hcnt]; exact lt_irrefl _),
        if_neg hdet]
      split_ifs
      · rfl
      · rfl
    rw [hest]
  · intro hm hagree
    rw [fit_ok_get cfg obs ws hvv hfit hm,
      fit_ok_get cfg obs' ws' hv' hfit' (by omega)]
    refine congrArg some (fitAt_congr cfg _ fun i hi => Or.inl (hagree i ?_))
    rwa [hlo] at hi
  · intro t
    rw [Nat.card_Icc]
    unfold lo
    omega

end Rolling

namespace Rolling

/-- C2 counterexample: an expanding call with `min_nobs = 1` whose first row
is missing stores the no-estimate sentinel at position `m - 1 = 0` (which is
not an estimate) and its first estimate (intercept 1) only at position 1, so
the claim "the first output position holding an estimate is m - 1" is false
at this input. -/
theorem rolling_expanding_first_estimate_cex :
    resAt (fit cfgExp1 obsMiss2 none) 0 = some PosResult.noEstimate
    ∧ interceptAt (fit cfgExp1 obsMiss2 none) 1 = some 1
    ∧ isEstimateB (PosResult.noEstimate : PosResult 1) = false := by
  refine ⟨?_, ?_, rfl⟩
  · rw [resAt_fit cfgExp1 obsMiss2 none (by decide) (by decide)]
    decide
  · have hfa := fitAt_eval_one cfgExp1 obsMiss2 none 1 1 1 (by decide)
      (by decide) rfl sumA_miss2_0_1 sumB_miss2_0_1 (by norm_num)
    rw [interceptAt_eval cfgExp1 obsMiss2 1 (by decide) (by decide) _ hfa]
    norm_num

/-- C8 counterexample: with window 1 over a single fully-missing row, the
window has 0 valid rows (fewer than `k = 1`), yet the slot stores the
no-estimate sentinel rather than the singular-design error the claim
mandates. -/
theorem rolling_underdetermined_cex :
    fit cfgW1 obsMiss1 none = Except.ok [PosResult.noEstimate]
    ∧ isSingularB (PosResult.noEstimate : PosResult 1) = false := by
  constructor
  · rw [fit_eq_map_fitAt cfgW1 obsMiss1 none (by decide)]
    rfl
  · rfl

/-- C3: whenever a slot stores an estimate, its coefficient vector solves
the normal equations formed from exactly the (valid) rows of the window
ending there; and in the spec's concrete ten-row intercept-only scenario
with window 3, positions 0 and 1 store no estimate, position 2 stores
intercept 2 and position 9 stores 9, while the expanding variant with
`min_nobs = 1` stores 1 at position 0 and 3/2 at position 1. -/
theorem rolling_normal_equations :
    (∀ (k : ℕ) (cfg : Config) (obs : List (Obs k)) (ws : Option (List ℚ))
      (t : ℕ) (d : EstimateData k), validCfg k cfg obs.length →
      t < obs.length →
      resAt (fit cfg obs ws) t = some (PosResult.est d) →
      (sumA obs ws (lo cfg.window_size t) t).mulVec d.params
        = sumB obs ws (lo cfg.window_size t) t)
    ∧ resAt (fit cfgA obsTen none) 0 = some PosResult.noEstimate
    ∧ resAt (fit cfgA obsTen none) 1 = some PosResult.noEstimate
    ∧ interceptAt (fit cfgA obsTen none) 2 = some 2
    ∧ interceptAt (fit cfgA obsTen none) 9 = some 9
    ∧ interceptAt (fit cfgB obsTen none) 0 = some 1
    ∧ interceptAt (fit cfgB obsTen none) 1 = some (3 / 2) := by
  refine ⟨?_, ?_, ?_, ?_, ?_, ?_, ?_⟩
  · intro k cfg obs ws t d hv ht hres
    rw [resAt_fit cfg obs ws hv ht] at hres
    have hres' : fitAt cfg obs ws t = PosResult.est d := Option.some.inj hres
    unfold fitAt fitWith at hres'
    split_ifs at hres' with h1 h2 h3 h4
    all_goals cases hres'
    all_goals exact mulVec_solveβ _ _ h3
  · rw [resAt_fit cfgA obsTen none (by decide) (by decide)]
    decide
  · rw [resAt_fit cfgA obsTen none (by decide) (by decide)]
    decide
  · have hfa := fitAt_eval_one cfgA obsTen none 2 3 6 (by decide) (by decide)
      rfl sumA_ten_0_2 sumB_ten_0_2 (by norm_num)
    rw [interceptAt_eval cfgA obsTen 2 (by decide) (by decide) _ hfa]
    norm_num
  · have hfa := fitAt_eval_one cfgA obsTen none 9 3 27 (by decide) (by decide)
      rfl sumA_ten_7_9 sumB_ten_7_9 (by norm_num)
    rw [interceptAt_eval cfgA obsTen 9 (by decide) (by decide) _ hfa]
    norm_num
  · have hfa := fitAt_eval_one cfgB obsTen none 0 1 1 (by decide) (by decide)
      rfl sumA_ten_0_0 sumB_ten_0_0 (by norm_num)
    rw [interceptAt_eval cfgB obsTen 0 (by decide) (by decide) _ hfa]
    norm_num
  · have hfa := fitAt_eval_one cfgB obsTen none 1 2 3 (by decide) (by decide)
      rfl sumA_ten_0_1 sumB_ten_0_1 (by norm_num)
    rw [interceptAt_eval cfgB obsTen 1 (by decide) (by decide) _ hfa]
    norm_num

end Rolling

namespace DFM

/-- C10: every `ExtendedDFM.update` call, after the optional parameter
transformation, zeroes the factor AR parameters at lags 3 and 4 (indexes 10
and 11) before delegating to `DynamicFactor.update`, and then writes the
three extra loading parameters into row 3, columns 1-3 of the design
matrix; consequently row 0 of the transition matrix carries only the two
lag-1 and lag-2 AR coefficients — an AR(2) factor transition — even though
the model was constructed with `factor_order = 4`. -/
theorem extended_dfm_update_ar2 (τ : (ℕ → ℚ) → ℕ → ℚ) (params : ℕ → ℚ)
    (tr : Bool) :
    (extendedDFMUpdate τ params tr).transition 0
      = (fun c : Fin 12 => if (c : ℕ) = 0 then appliedParams τ params tr 8
          else if (c : ℕ) = 1 then appliedParams τ params tr 9 else 0)
    ∧ zeroedParams (appliedParams τ params tr) 10 = 0
    ∧ zeroedParams (appliedParams τ params tr) 11 = 0
    ∧ (extendedDFMUpdate τ params tr).design 3 1 = appliedParams τ params tr 20
    ∧ (extendedDFMUpdate τ params tr).design 3 2 = appliedParams τ params tr 21
    ∧ (extendedDFMUpdate τ params tr).design 3 3 = appliedParams τ params tr 22 := by
  refine ⟨?_, by simp [zeroedParams], by simp [zeroedParams], ?_, ?_, ?_⟩
  · funext c
    rcases c with ⟨cv, hc⟩
    unfold extendedDFMUpdate dynamicFactorUpdate zeroedParams
    interval_cases cv <;> simp [Fin.coe_ofNat_eq_mod]
  · unfold extendedDFMUpdate dynamicFactorUpdate zeroedParams
    simp [show ((3 : Fin 4) : ℕ) = 3 from rfl, show ((1 : Fin 12) : ℕ) = 1 from rfl]
  · unfold extendedDFMUpdate dynamicFactorUpdate zeroedParams
    simp [show ((3 : Fin 4) : ℕ) = 3 from rfl, show ((2 : Fin 12) : ℕ) = 2 from rfl]
  · unfold extendedDFMUpdate dynamicFactorUpdate zeroedParams
    simp [show ((3 : Fin 4) : ℕ) = 3 from rfl, show ((3 : Fin 12) : ℕ) = 3 from rfl]

end DFM

namespace Rolling

/-- Witness for the C1 alignment theorem at the concrete ten-row scenario
with window 3, position 2, against a variant differing only outside the
window. -/
theorem rolling_nonexpanding_alignment_witness :
    validCfg 1 cfgA obsTen.length
    ∧ cfgA.expanding = false
    ∧ obsTenAlt.length = obsTen.length
    ∧ fit cfgA obsTen none
        = Except.ok ((List.range obsTen.length).map (fitAt cfgA obsTen none))
    ∧ fit cfgA obsTenAlt none
        = Except.ok ((List.range obsTenAlt.length).map (fitAt cfgA obsTenAlt none))
    ∧ (2 : ℕ) < obsTen.length
    ∧ ((2 + 1 < cfgA.window_size →
          ((List.range obsTen.length).map (fitAt cfgA obsTen none)).get? 2
            = some PosResult.noEstimate)
       ∧ (cfgA.window_size - 1 ≤ 2 →
          (∀ i ∈ Finset.Icc (2 + 1 - cfgA.window_size) 2,
            obsTen.getD i default = obsTenAlt.getD i default
              ∧ wAt none i = wAt none i) →
          ((List.range obsTen.length).map (fitAt cfgA obsTen none)).get? 2
            = ((List.range obsTenAlt.length).map (fitAt cfgA obsTenAlt none)).get? 2)) :=
  ⟨by decide, rfl, rfl, fit_eq_map_fitAt _ _ _ (by decide),
    fit_eq_map_fitAt _ _ _ (by decide), by decide,
    rolling_nonexpanding_alignment cfgA obsTen obsTenAlt none none _ _ 2
      (by decide) rfl rfl (fit_eq_map_fitAt _ _ _ (by decide))
      (fit_eq_map_fitAt _ _ _ (by decide)) (by decide)⟩

/-- Witness for the C5 no-look-ahead theorem: the ten-row sample and its
variant agree up to position 2 and differ later, yet slot 2 agrees. -/
theorem rolling_no_lookahead_witness :
    validCfg 1 cfgB obsTen.length
    ∧ obsTenAlt.length = obsTen.length
    ∧ fit cfgB obsTen none
        = Except.ok ((List.range obsTen.length).map (fitAt cfgB obsTen none))
    ∧ fit cfgB obsTenAlt none
        = Except.ok ((List.range obsTenAlt.length).map (fitAt cfgB obsTenAlt none))
    ∧ (2 : ℕ) < obsTen.length
    ∧ (∀ i, i ≤ 2 → sameRowOK obsTen obsTenAlt none none i)
    ∧ ((List.range obsTen.length).map (fitAt cfgB obsTen none)).get? 2
        = ((List.range obsTenAlt.length).map (fitAt cfgB obsTenAlt none)).get? 2 :=
  ⟨by decide, rfl, fit_eq_map_fitAt _ _ _ (by decide),
    fit_eq_map_fitAt _ _ _ (by decide), by decide, by decide,
    rolling_no_lookahead cfgB obsTen obsTenAlt none none _ _ 2 (by decide) rfl
      (fit_eq_map_fitAt _ _ _ (by decide)) (fit_eq_map_fitAt _ _ _ (by decide))
      (by decide) (by decide)⟩

/-- Witness for the C6 fail-fast theorem at a window size of zero. -/
theorem rolling_config_fail_fast_witness :
    cfgBadW.window_size < 1
    ∧ fit cfgBadW obsOne none = Except.error ConfigurationError.badWindowSize
    ∧ ∃ e, fit cfgBadW obsOne none = Except.error e :=
  ⟨by decide, rfl,
    rolling_config_fail_fast cfgBadW obsOne none (Or.inl (by decide))⟩

end Rolling

namespace Rolling

/-- Witness for the C7 localization theorem: with window 1 over three rows
whose middle covariate is zero, slot 1 records the singular-design error
while every other slot equals its independent per-window fit. -/
theorem rolling_singular_localized_witness :
    validCfg 1 cfgW1 obsSing.length
    ∧ fit cfgW1 obsSing none
        = Except.ok ((List.range obsSing.length).map (fitAt cfgW1 obsSing none))
    ∧ (1 : ℕ) < obsSing.length
    ∧ ¬(cfgW1.expanding = false ∧ 1 + 1 < cfgW1.window_size)
    ∧ ¬(nvalid obsSing none (lo cfgW1.window_size 1) 1 < minN 1 cfgW1)
    ∧ (sumA obsSing none (lo cfgW1.window_size 1) 1).det = 0
    ∧ (((List.range obsSing.length).map (fitAt cfgW1 obsSing none)).get? 1
          = some PosResult.singular
       ∧ ∀ s, s < obsSing.length → s ≠ 1 →
          ((List.range obsSing.length).map (fitAt cfgW1 obsSing none)).get? s
            = some (fitAt cfgW1 obsSing none s)) :=
  ⟨by decide, fit_eq_map_fitAt _ _ _ (by decide), by decide, by decide,
    by decide, sumA_sing_det,
    rolling_singular_localized cfgW1 obsSing none _ 1 (by decide)
      (fit_eq_map_fitAt _ _ _ (by decide)) (by decide) (by decide) (by decide)
      sumA_sing_det⟩

/-- Witness for the amended C8 theorem: with window 1 over one fully-missing
row, the window has fewer than `k = 1` valid rows and slot 0 stores the
no-estimate sentinel. -/
theorem rolling_underdetermined_amended_witness :
    validCfg 1 cfgW1 obsMiss1.length
    ∧ fit cfgW1 obsMiss1 none
        = Except.ok ((List.range obsMiss1.length).map (fitAt cfgW1 obsMiss1 none))
    ∧ (0 : ℕ) < obsMiss1.length
    ∧ nvalid obsMiss1 none (lo cfgW1.window_size 0) 0 < 1
    ∧ ((List.range obsMiss1.length).map (fitAt cfgW1 obsMiss1 none)).get? 0
        = some PosResult.noEstimate :=
  ⟨by decide, fit_eq_map_fitAt _ _ _ (by decide), by decide, by decide,
    rolling_underdetermined_amended cfgW1 obsMiss1 none _ 0 (by decide)
      (fit_eq_map_fitAt _ _ _ (by decide)) (by decide) (by decide)⟩

/-- Witness for the amended C2 theorem at the expanding ten-row scenario
with `min_nobs = 1`: the first row is valid, its one-row design is
nonsingular, and slot 0 stores an estimate. -/
theorem rolling_expanding_start_amended_witness :
    (1 : ℕ) ≤ 1
    ∧ validCfg 1 cfgB obsTen.length
    ∧ cfgB.expanding = true
    ∧ fit cfgB obsTen none
        = Except.ok ((List.range obsTen.length).map (fitAt cfgB obsTen none))
    ∧ minN 1 cfgB - 1 < obsTen.length
    ∧ (∀ i, i < minN 1 cfgB → validB obsTen none i = true)
    ∧ (sumA obsTen none 0 (minN 1 cfgB - 1)).det ≠ 0
    ∧ ((∀ t, t < obsTen.length → t + 1 < minN 1 cfgB →
          ((List.range obsTen.length).map (fitAt cfgB obsTen none)).get? t
            = some PosResult.noEstimate)
       ∧ (minN 1 cfgB - 1 < obsTen.length →
           (∀ i, i < minN 1 cfgB → validB obsTen none i = true) →
           (sumA obsTen none 0 (minN 1 cfgB - 1)).det ≠ 0 →
           (((List.range obsTen.length).map (fitAt cfgB obsTen none)).get?
              (minN 1 cfgB - 1)).map isEstimateB = some true)
       ∧ (minN 1 cfgB - 1 < obsTen.length →
           (∀ i ∈ Finset.Icc 0 (minN 1 cfgB - 1),
             obsTen.getD i default = obsTen.getD i default
               ∧ wAt none i = wAt none i) →
           ((List.range obsTen.length).map (fitAt cfgB obsTen none)).get?
              (minN 1 cfgB - 1)
             = ((List.range obsTen.length).map (fitAt cfgB obsTen none)).get?
                (minN 1 cfgB - 1))
       ∧ (∀ t, (Finset.Icc (lo cfgB.window_size t) t).card
            = min (t + 1) cfgB.window_size)) := by
  have hdet : (sumA obsTen none 0 (minN 1 cfgB - 1)).det ≠ 0 := by
    rw [show minN 1 cfgB - 1 = 0 from rfl, sumA_ten_0_0, Matrix.det_fin_one,
      Matrix.of_apply]
    norm_num
  exact ⟨le_refl 1, by decide, rfl, fit_eq_map_fitAt _ _ _ (by decide),
    by decide, by decide, hdet,
    rolling_expanding_start_amended cfgB obsTen obsTen none none _ _
      (le_refl 1) (by decide) rfl rfl (fit_eq_map_fitAt _ _ _ (by decide))
      (fit_eq_map_fitAt _ _ _ (by decide))⟩

/-- Witness for the C3 normal-equations theorem at the concrete ten-row
scenario, window 3, position 2 (coefficients solve `(X'WX) β = X'Wy`). -/
theorem rolling_normal_equations_witness :
    validCfg 1 cfgA obsTen.length
    ∧ (2 : ℕ) < obsTen.length
    ∧ resAt (fit cfgA obsTen none) 2
        = some (PosResult.est
            ⟨solveβ (sumA obsTen none (lo cfgA.window_size 2) 2)
               (sumB obsTen none (lo cfgA.window_size 2) 2),
             nvalid obsTen none (lo cfgA.window_size 2) 2,
             nvalid obsTen none (lo cfgA.window_size 2) 2 - 1, none, none⟩)
    ∧ (sumA obsTen none (lo cfgA.window_size 2) 2).mulVec
        (solveβ (sumA obsTen none (lo cfgA.window_size 2) 2)
          (sumB obsTen none (lo cfgA.window_size 2) 2))
        = sumB obsTen none (lo cfgA.window_size 2) 2 := by
  have hdet : ¬(sumA obsTen none (lo cfgA.window_size 2) 2).det = 0 := by
    rw [show lo cfgA.window_size 2 = 0 from rfl, sumA_ten_0_2,
      Matrix.det_fin_one, Matrix.of_apply]
    norm_num
  have hres : resAt (fit cfgA obsTen none) 2
      = some (PosResult.est
          ⟨solveβ (sumA obsTen none (lo cfgA.window_size 2) 2)
             (sumB obsTen none (lo cfgA.window_size 2) 2),
           nvalid obsTen none (lo cfgA.window_size 2) 2,
           nvalid obsTen none (lo cfgA.window_size 2) 2 - 1, none, none⟩) := by
    rw [resAt_fit cfgA obsTen none (by decide) (by decide)]
    unfold fitAt fitWith
    rw [if_neg (by decide), if_neg (by decide), if_neg hdet,
      if_pos (show cfgA.params_only = true from rfl)]
  exact ⟨by decide, by decide, hres,
    rolling_normal_equations.1 1 cfgA obsTen none 2 _ (by decide) (by decide)
      hres⟩

end Rolling
